import Mathlib

/-!
Shallow embedding of the USAJOBS ETL service (src/etl/etl.py): the
circuit breaker, the retry wrapper, record validation and extraction,
the dedup-then-upsert accountant, and the pagination loop of
ETLService.run.  Machine time is modelled as Int, money/delays as ℚ,
and the external API as a function from page number to an
Except-valued page response.  Calendar dates and timestamps are
modelled as opaque strings: none of the verified properties inspects
them.
-/

namespace UsaJobsEtl

/-- Python str membership test (substring), as used by
the expression (\"rate limit\" not in str(e).lower()): leadAgrees pat s
decides whether pat is an initial segment of s. -/
def leadAgrees : List Char → List Char → Bool
  | [], _ => true
  | _ :: _, [] => false
  | p :: ps, c :: cs => p == c && leadAgrees ps cs

/-- charsContains pat s decides whether pat occurs contiguously in s. -/
def charsContains (pat : List Char) : List Char → Bool
  | [] => pat.isEmpty
  | c :: cs => leadAgrees pat (c :: cs) || charsContains pat cs

/-- Python pat in s on strings. -/
def strContains (s pat : String) : Bool := charsContains pat.data s.data

/-- Python str.lower(). -/
def pyToLower (s : String) : String := String.mk (s.data.map Char.toLower)

/-- Python str.strip(): drop whitespace from both ends. -/
def pyStrip (s : String) : String :=
  String.mk (((s.data.dropWhile Char.isWhitespace).reverse.dropWhile Char.isWhitespace).reverse)

/-- Python str.startswith(pat). -/
def pyStartsWith (s pat : String) : Bool := leadAgrees pat.data s.data

/-- Embedding of the JobPosting dataclass (etl.py lines 96-128).  Dates and
the extraction timestamp are opaque strings here; no verified property
inspects them. -/
structure JobPosting where
  position_title : String
  position_uri : String
  position_location : String
  position_remuneration : String
  position_start_date : Option String := none
  position_end_date : Option String := none
  organization_name : Option String := none
  department_name : Option String := none
  job_category : Option String := none
  job_grade : Option String := none
  extracted_at : Option String := none
deriving DecidableEq, Repr

/-- JobPosting.validate (etl.py lines 116-124): title non-empty and
non-blank, uri non-empty and non-blank, uri starts with http. -/
def JobPosting.validate (j : JobPosting) : Bool :=
  if j.position_title == "" || pyStrip j.position_title == "" then false
  else if j.position_uri == "" || pyStrip j.position_uri == "" then false
  else if !(pyStartsWith j.position_uri "http") then false
  else true

/-- The per-item validation filter of USAJobsAPIClient.extract_job_data
(etl.py lines 283-286): a parsed candidate record is kept iff it
validates.  The upstream JSON field parsing that produces the candidates
is out of scope; items stands for the already-parsed candidates of one
page. -/
def extract_job_data (items : List JobPosting) : List JobPosting :=
  items.filter (fun j => j.validate)

/-- Circuit breaker states (etl.py line 139). -/
inductive CBState where
  | CLOSED
  | OPEN
  | HALF_OPEN
deriving DecidableEq, Repr

/-- Embedding of the CircuitBreaker instance state (etl.py lines 131-139).
Wall-clock instants are Int. -/
structure CircuitBreaker where
  failure_threshold : Nat
  recovery_timeout : Int
  failure_count : Nat
  last_failure_time : Option Int
  state : CBState
deriving DecidableEq, Repr

/-- CircuitBreaker.__init__ (etl.py lines 134-139). -/
def CircuitBreaker.init (failure_threshold : Nat) (recovery_timeout : Int) :
    CircuitBreaker :=
  { failure_threshold := failure_threshold
    recovery_timeout := recovery_timeout
    failure_count := 0
    last_failure_time := none
    state := CBState.CLOSED }

/-- The body of CircuitBreaker.call after the OPEN guard (etl.py lines
148-161): run the wrapped operation, whose behaviour is given as outcome.
Returns (result, state after the call).  The Bool flag in the result of
CircuitBreaker.call below records whether the wrapped operation was
invoked. -/
def CircuitBreaker.callThrough (cb : CircuitBreaker) (now : Int)
    (outcome : Except String α) : Except String α × CircuitBreaker :=
  match outcome with
  | Except.ok v =>
      if cb.state = CBState.HALF_OPEN then
        (Except.ok v, { cb with state := CBState.CLOSED, failure_count := 0 })
      else
        (Except.ok v, cb)
  | Except.error e =>
      let fc := cb.failure_count + 1
      (Except.error e,
        { cb with
            failure_count := fc
            last_failure_time := some now
            state := if cb.failure_threshold ≤ fc then CBState.OPEN else cb.state })

/-- CircuitBreaker.call (etl.py lines 141-161).  now is the current clock
reading and outcome is what the wrapped operation would do if invoked.
Returns (result, whether the operation was invoked, breaker state after
the call).  The OPEN-with-no-recorded-failure branch is unreachable
(OPEN is only entered when a failure time is recorded); there the Python
subtraction would itself raise. -/
def CircuitBreaker.call (cb : CircuitBreaker) (now : Int)
    (outcome : Except String α) : Except String α × Bool × CircuitBreaker :=
  match cb.state, cb.last_failure_time with
  | CBState.OPEN, some lft =>
      if cb.recovery_timeout < now - lft then
        let r := CircuitBreaker.callThrough { cb with state := CBState.HALF_OPEN } now outcome
        (r.1, true, r.2)
      else
        (Except.error "Circuit breaker is OPEN", false, cb)
  | CBState.OPEN, none =>
      (Except.error "unsupported operand type for None", false, cb)
  | _, _ =>
      let r := CircuitBreaker.callThrough cb now outcome
      (r.1, true, r.2)

/-- The retry decorator loop (etl.py lines 63-93).  f gives the outcome of
each invocation, indexed from 0; rem is how many attempts remain
(max_attempts minus attempts made so far), calls counts invocations made,
cur is the current backoff delay.  Returns (result, total invocations,
list of sleeps performed in order); the none result is the fall-through
return None when the loop never runs (max_attempts = 0). -/
def retryAux (f : Nat → Except String α) (backoff : ℚ) :
    Nat → Nat → ℚ → Option (Except String α) × Nat × List ℚ
  | 0, calls, _ => (none, calls, [])
  | rem + 1, calls, cur =>
      match f calls with
      | Except.ok v => (some (Except.ok v), calls + 1, [])
      | Except.error e =>
          if rem = 0 then
            (some (Except.error e), calls + 1, [])
          else
            let r := retryAux f backoff rem (calls + 1) (cur * backoff)
            (r.1, r.2.1, cur :: r.2.2)

/-- The retry decorator (etl.py lines 63-93) applied to an operation whose
per-invocation outcomes are f. -/
def retry (max_attempts : Nat) (delay backoff : ℚ)
    (f : Nat → Except String α) : Option (Except String α) × Nat × List ℚ :=
  retryAux f backoff max_attempts 0 delay

/-- The deduplication scan inside DatabaseManager.upsert_jobs (etl.py lines
452-465): seen is the set of position_uri values already kept, as a list. -/
def dedupAux (seen : List String) : List JobPosting → List JobPosting
  | [] => []
  | j :: rest =>
      if j.position_uri ∈ seen then dedupAux seen rest
      else j :: dedupAux (j.position_uri :: seen) rest

/-- Deduplicate a batch by position_uri, keeping the first occurrence of
each key (etl.py lines 452-465, seen_uris initially empty). -/
def dedupByUri (jobs : List JobPosting) : List JobPosting := dedupAux [] jobs

/-- The statistics dictionary returned by DatabaseManager.upsert_jobs. -/
structure UpsertStats where
  inserted : Nat
  updated : Nat
  total : Nat
deriving DecidableEq, Repr

/-- The persisted table, one row per position_uri (job_postings with its
UNIQUE constraint on position_uri). -/
def hasKey (store : List JobPosting) (k : String) : Bool :=
  store.any (fun r => r.position_uri == k)

/-- The row a SELECT by position_uri would return: the first (in a store
respecting the UNIQUE constraint, the only) row with that key. -/
def lookupRow (store : List JobPosting) (k : String) : Option JobPosting :=
  store.find? (fun r => r.position_uri == k)

/-- One row of the ON CONFLICT upsert (etl.py lines 467-488): insert when
the key is new (reported inserted, xmax = 0), otherwise overwrite every
mutable field of the existing row with the incoming values (reported
updated). -/
def applyUpsert (store : List JobPosting) (j : JobPosting) :
    List JobPosting × Bool :=
  if hasKey store j.position_uri then
    (store.map (fun r => if r.position_uri == j.position_uri then j else r), false)
  else
    (store ++ [j], true)

/-- Apply the upsert statement to each deduplicated row in order, counting
inserted and updated rows as classified by the store (etl.py lines
490-521). -/
def upsertAll (store : List JobPosting) :
    List JobPosting → List JobPosting × Nat × Nat
  | [] => (store, 0, 0)
  | j :: rest =>
      let r := applyUpsert store j
      let r2 := upsertAll r.1 rest
      if r.2 then (r2.1, r2.2.1 + 1, r2.2.2) else (r2.1, r2.2.1, r2.2.2 + 1)

/-- DatabaseManager.upsert_jobs (etl.py lines 445-521): early return on an
empty batch, deduplicate by position_uri keeping first occurrences, then
transactionally upsert and report (inserted, updated, total) where total
is the number of returned rows, one per deduplicated input row. -/
def upsert_jobs (store : List JobPosting) (jobs : List JobPosting) :
    List JobPosting × UpsertStats :=
  if jobs.isEmpty then (store, { inserted := 0, updated := 0, total := 0 })
  else
    let r := upsertAll store (dedupByUri jobs)
    (r.1, { inserted := r.2.1, updated := r.2.2, total := r.2.1 + r.2.2 })

/-- One decoded page of the remote search API as ETLService.run reads it:
the parsed SearchResultItems (as candidate records), SearchResultCount
and SearchResultCountAll. -/
structure Page where
  items : List JobPosting
  searchResultCount : Nat
  searchResultCountAll : Nat

/-- The mutable run state threaded through the pagination loop of
ETLService.run: accumulated records, the metrics counters and error list,
plus fetch_attempts, an instrumentation counter of loop iterations (one
search_jobs call per iteration). -/
structure LoopState where
  all_jobs : List JobPosting
  api_calls : Nat
  jobs_extracted : Nat
  errors : List String
  fetch_attempts : Nat
deriving Repr

/-- The initial run state (metrics zeroed, no records, no errors). -/
def initLoopState : LoopState :=
  { all_jobs := [], api_calls := 0, jobs_extracted := 0, errors := [], fetch_attempts := 0 }

/-- The error message recorded for a failed page (etl.py line 650). -/
def pageErrMsg (page : Nat) (e : String) : String :=
  "Error processing page " ++ toString page ++ ": " ++ e

/-- The pagination loop of ETLService.run (etl.py lines 617-659).  fetch
gives the outcome of search_jobs on each page number; the loop runs while
page ≤ max_pages, stops on an empty page, on a short page
(fewer than 500 items), when SearchResultCount ≥ SearchResultCountAll,
or on an error whose text contains rate limit (case-insensitively);
on any other error it records the message and advances to the next page. -/
def runLoopAux (fetch : Nat → Except String Page) (max_pages : Nat)
    (page : Nat) (st : LoopState) : LoopState :=
  if _h : max_pages < page then st
  else
    let st0 := { st with fetch_attempts := st.fetch_attempts + 1 }
    match fetch page with
    | Except.ok resp =>
        let st1 := { st0 with api_calls := st0.api_calls + 1 }
        if resp.items.isEmpty then st1
        else
          let jobs := extract_job_data resp.items
          let st2 := { st1 with
                        all_jobs := st1.all_jobs ++ jobs
                        jobs_extracted := st1.jobs_extracted + jobs.length }
          if resp.items.length < 500 ∨
              resp.searchResultCountAll ≤ resp.searchResultCount then st2
          else runLoopAux fetch max_pages (page + 1) st2
    | Except.error e =>
        let st1 := { st0 with errors := st0.errors ++ [pageErrMsg page e] }
        if strContains (pyToLower e) "rate limit" then st1
        else runLoopAux fetch max_pages (page + 1) st1
termination_by max_pages + 1 - page
decreasing_by all_goals omega

/-- The pagination loop started at page 1 on a fresh run state. -/
def runLoop (fetch : Nat → Except String Page) (max_pages : Nat) : LoopState :=
  runLoopAux fetch max_pages 1 initLoopState

/-- The run summary dictionary of ETLService.run (etl.py lines 674-682),
restricted to its data-flow fields; wall-clock duration and the final
database statistics queries are out of scope. -/
structure RunSummary where
  api_calls_made : Nat
  jobs_extracted : Nat
  jobs_inserted : Nat
  jobs_updated : Nat
  errors : List String
deriving Repr

/-- ETLService.run after table creation (etl.py lines 613-685): paginate,
then load the accumulated records through upsert_jobs (the all_jobs-empty
branch returns zero statistics exactly as upsert_jobs does), and return
the summary together with the resulting store. -/
def etlRun (fetch : Nat → Except String Page) (max_pages : Nat)
    (store : List JobPosting) : RunSummary × List JobPosting :=
  let st := runLoop fetch max_pages
  let r := upsert_jobs store st.all_jobs
  ({ api_calls_made := st.api_calls
     jobs_extracted := st.jobs_extracted
     jobs_inserted := r.2.inserted
     jobs_updated := r.2.updated
     errors := st.errors }, r.1)

/-- Two postings sharing one position_uri but differing in title. -/
def jobA : JobPosting :=
  { position_title := "Data Engineer I"
    position_uri := "https://example.gov/job/1"
    position_location := "Washington, DC, US"
    position_remuneration := "Not specified" }

/-- Second posting with the same position_uri as jobA. -/
def jobB : JobPosting :=
  { position_title := "Data Engineer II"
    position_uri := "https://example.gov/job/1"
    position_location := "Austin, TX, US"
    position_remuneration := "Not specified" }

/-- A posting whose key starts with http but is not an absolute URL. -/
def garbageJob : JobPosting :=
  { position_title := "Engineer"
    position_uri := "httpgarbage"
    position_location := ""
    position_remuneration := "" }

/-- The run state after one loop iteration whose fetch succeeded with an
empty page (the loop then stops). -/
def fetchStepEmpty (st : LoopState) : LoopState :=
  { st with
      fetch_attempts := st.fetch_attempts + 1
      api_calls := st.api_calls + 1 }

/-- The run state after one loop iteration whose fetch succeeded with a
non-empty page: the api-call counter advances and the valid records of
the page are appended. -/
def fetchStepOk (st : LoopState) (resp : Page) : LoopState :=
  { st with
      fetch_attempts := st.fetch_attempts + 1
      api_calls := st.api_calls + 1
      all_jobs := st.all_jobs ++ extract_job_data resp.items
      jobs_extracted := st.jobs_extracted + (extract_job_data resp.items).length }

/-- The run state after one loop iteration whose fetch raised: the error
message is recorded. -/
def errStep (st : LoopState) (page : Nat) (e : String) : LoopState :=
  { st with
      fetch_attempts := st.fetch_attempts + 1
      errors := st.errors ++ [pageErrMsg page e] }

/-! Theorems. -/

/-! Helper lemmas about the circuit breaker. -/

theorem call_closed_ok_eq (cb : CircuitBreaker) (now : Int) (v : α)
    (h : cb.state = CBState.CLOSED) :
    cb.call now (Except.ok v) = (Except.ok v, true, cb) := by
  obtain ⟨ft, rt, fc, lft, s⟩ := cb
  cases s with
  | CLOSED => rfl
  | OPEN => exact CBState.noConfusion h
  | HALF_OPEN => exact CBState.noConfusion h

/-- C1: with failure_threshold 2 and fresh state, the first failure leaves
the breaker Closed with count 1, the second opens it with count 2; while
Open, a call within recovery_timeout of the last failure is rejected with
the circuit-open error, the operation is not invoked and the state is
untouched; a call strictly after recovery_timeout passes through
(Half-Open) and on success ends Closed with a zero failure counter. -/
theorem circuit_breaker_threshold_open_halfopen_reset
    (τ t1 t2 t3 t4 : Int) (e1 e2 : String) (v : Nat)
    (hreject : t3 - t2 ≤ τ) (hrecover : τ < t4 - t2) :
    ∀ cb1 cb2 : CircuitBreaker,
      cb1 = ((CircuitBreaker.init 2 τ).call t1
        (Except.error e1 : Except String Nat)).2.2 →
      cb2 = (cb1.call t2 (Except.error e2 : Except String Nat)).2.2 →
      cb1.state = CBState.CLOSED ∧ cb1.failure_count = 1 ∧
      cb2.state = CBState.OPEN ∧ cb2.failure_count = 2 ∧
      cb2.last_failure_time = some t2 ∧
      (cb2.call t3 (Except.ok v)).1 = Except.error "Circuit breaker is OPEN" ∧
      (cb2.call t3 (Except.ok v)).2.1 = false ∧
      (cb2.call t3 (Except.ok v)).2.2 = cb2 ∧
      (cb2.call t4 (Except.ok v)).2.1 = true ∧
      (cb2.call t4 (Except.ok v)).1 = Except.ok v ∧
      (cb2.call t4 (Except.ok v)).2.2.state = CBState.CLOSED ∧
      (cb2.call t4 (Except.ok v)).2.2.failure_count = 0 := by
  intro cb1 cb2 h1 h2
  subst h1
  subst h2
  have h3 : ¬ (τ < t3 - t2) := not_lt.mpr hreject
  refine ⟨rfl, rfl, rfl, rfl, rfl, ?_, ?_, ?_, ?_, ?_, ?_, ?_⟩ <;>
    simp [CircuitBreaker.init, CircuitBreaker.call, CircuitBreaker.callThrough,
      h3, hrecover]

/-- Witness for the C1 theorem at a concrete clock and payload. -/
theorem circuit_breaker_threshold_open_halfopen_reset_witness :
    (((CircuitBreaker.init 2 10).call 0
        (Except.error "boom1" : Except String Nat)).2.2).state
      = CBState.CLOSED ∧
    (((((CircuitBreaker.init 2 10).call 0
        (Except.error "boom1" : Except String Nat)).2.2).call 1
        (Except.error "boom2" : Except String Nat)).2.2).state = CBState.OPEN :=
  have h := circuit_breaker_threshold_open_halfopen_reset 10 0 1 5 100
    "boom1" "boom2" 42 (by decide) (by decide) _ _ rfl rfl
  ⟨h.1, h.2.2.1⟩

/-- C9: a successful call in the Closed state leaves the breaker state
entirely unchanged (no counter reset), hence the threshold can be reached
by failures interleaved with successes: with threshold 2, failure,
success, failure ends Open with count 2. -/
theorem closed_success_is_frame (cb : CircuitBreaker) (now : Int) (v : Nat)
    (h : cb.state = CBState.CLOSED) :
    cb.call now (Except.ok v) = (Except.ok v, true, cb) ∧
    (∀ (τ t1 t2 t3 : Int) (e1 e2 : String) (w : Nat),
      let s1 := ((CircuitBreaker.init 2 τ).call t1 (Except.error e1 : Except String Nat)).2.2
      let s2 := (s1.call t2 (Except.ok w)).2.2
      let s3 := (s2.call t3 (Except.error e2 : Except String Nat)).2.2
      s1.state = CBState.CLOSED ∧ s1.failure_count = 1 ∧ s2 = s1 ∧
      s3.state = CBState.OPEN ∧ s3.failure_count = 2) := by
  refine ⟨call_closed_ok_eq cb now v h, ?_⟩
  intro τ t1 t2 t3 e1 e2 w
  exact ⟨rfl, rfl, rfl, rfl, rfl⟩

/-- Witness for the C9 theorem on a fresh Closed breaker. -/
theorem closed_success_is_frame_witness :
    (CircuitBreaker.init 3 60).state = CBState.CLOSED ∧
    (CircuitBreaker.init 3 60).call 7 (Except.ok 5) =
      (Except.ok 5, true, CircuitBreaker.init 3 60) :=
  ⟨rfl, (closed_success_is_frame (CircuitBreaker.init 3 60) 7 5 rfl).1⟩

/-! Helper lemmas about the retry loop. -/

theorem retryAux_calls_le (f : Nat → Except String α) (b : ℚ) :
    ∀ (rem calls : Nat) (cur : ℚ), (retryAux f b rem calls cur).2.1 ≤ calls + rem := by
  intro rem
  induction rem with
  | zero => intro calls cur; simp [retryAux]
  | succ r0 ih =>
      intro calls cur
      rw [retryAux]
      cases hf : f calls with
      | ok v => simp
      | error e =>
          by_cases h0 : r0 = 0
          · subst h0; simp
          · simp only [if_neg h0]
            have := ih (calls + 1) (cur * b)
            simpa using by omega

theorem retryAux_first_success (f : Nat → Except String α) (b : ℚ) :
    ∀ (k rem calls : Nat) (cur : ℚ) (v : α), k < rem →
      (∀ j, j < k → ∃ e, f (calls + j) = Except.error e) →
      f (calls + k) = Except.ok v →
      retryAux f b rem calls cur =
        (some (Except.ok v), calls + k + 1,
          (List.range k).map (fun i => cur * b ^ i)) := by
  intro k
  induction k with
  | zero =>
      intro rem calls cur v hk _hfail hok
      obtain ⟨rem0, rfl⟩ : ∃ r0, rem = r0 + 1 := ⟨rem - 1, by omega⟩
      have hok0 : f calls = Except.ok v := by simpa using hok
      simp [retryAux, hok0]
  | succ k0 ih =>
      intro rem calls cur v hk hfail hok
      obtain ⟨rem0, rfl⟩ : ∃ r0, rem = r0 + 1 := ⟨rem - 1, by omega⟩
      obtain ⟨e, he⟩ := hfail 0 (Nat.succ_pos k0)
      have he0 : f calls = Except.error e := by simpa using he
      have hrem0 : rem0 ≠ 0 := by omega
      have hrec := ih rem0 (calls + 1) (cur * b) v (by omega)
        (fun j hj => by
          have := hfail (j + 1) (by omega)
          simpa [Nat.add_assoc, Nat.add_comm 1 j] using this)
        (by simpa [Nat.add_assoc, Nat.add_comm 1 k0] using hok)
      rw [retryAux]
      simp only [he0, if_neg hrem0, hrec]
      refine Prod.ext rfl (Prod.ext (by simp; omega) ?_)
      simp only [List.range_succ_eq_map, List.map_cons, List.map_map]
      refine congrArg₂ List.cons (by simp) ?_
      refine List.map_congr_left ?_
      intro i _
      simp [Function.comp, pow_succ]
      ring

/-- C2: the retry wrapper makes at most max_attempts invocations; with the
first success at invocation k (0-based, k below max_attempts) it returns
that value after exactly k + 1 invocations, having slept d, d times b,
and so on; with max_attempts 3, two failures then a success give exactly 3
invocations, the third value, and sleeps d then d times b; three failures
give exactly 3 invocations, the third error propagated, the same sleeps
and no sleep after the final failure. -/
theorem retry_behaviour (N : Nat) (hN : 1 ≤ N) (d b : ℚ) (hb : 1 < b)
    (f : Nat → Except String Nat) :
    (retry N d b f).2.1 ≤ N ∧
    (∀ k v, k < N → (∀ j, j < k → ∃ e, f j = Except.error e) →
        f k = Except.ok v →
        retry N d b f =
          (some (Except.ok v), k + 1, (List.range k).map (fun i => d * b ^ i))) ∧
    (∀ e0 e1 v, f 0 = Except.error e0 → f 1 = Except.error e1 →
        f 2 = Except.ok v →
        retry 3 d b f = (some (Except.ok v), 3, [d, d * b])) ∧
    (∀ e0 e1 e2, f 0 = Except.error e0 → f 1 = Except.error e1 →
        f 2 = Except.error e2 →
        retry 3 d b f = (some (Except.error e2), 3, [d, d * b])) := by
  refine ⟨?_, ?_, ?_, ?_⟩
  · simpa using retryAux_calls_le f b N 0 d
  · intro k v hk hfail hok
    have := retryAux_first_success f b k N 0 d v hk
      (fun j hj => by simpa using hfail j hj) (by simpa using hok)
    simpa [retry] using this
  · intro e0 e1 v h0 h1 h2
    simp [retry, retryAux, h0, h1, h2]
  · intro e0 e1 e2 h0 h1 h2
    simp [retry, retryAux, h0, h1, h2]

/-- Witness for the C2 theorem: an operation failing twice then succeeding,
run with max_attempts 3, delay 1, backoff 2. -/
theorem retry_behaviour_witness :
    (1 ≤ 3 ∧ (1 : ℚ) < 2) ∧
    (retry 3 1 2 (fun j => if j = 2 then Except.ok 7 else Except.error "boom")).2.1 ≤ 3 :=
  ⟨⟨by decide, by norm_num⟩,
    (retry_behaviour 3 (by decide) 1 2 (by norm_num)
      (fun j => if j = 2 then Except.ok 7 else Except.error "boom")).1⟩

/-! Helper lemmas about the dedup scan. -/

theorem dedupAux_sublist : ∀ (l : List JobPosting) (seen : List String),
    (dedupAux seen l).Sublist l := by
  intro l
  induction l with
  | nil => intro seen; simp [dedupAux]
  | cons j rest ih =>
      intro seen
      rw [dedupAux]
      by_cases h : j.position_uri ∈ seen
      · rw [if_pos h]; exact (ih seen).cons j
      · rw [if_neg h]; exact (ih _).cons₂ j

theorem dedupAux_spec : ∀ (l : List JobPosting) (seen : List String)
    (j2 : JobPosting), j2 ∈ dedupAux seen l →
    j2.position_uri ∉ seen ∧
      l.find? (fun j => j.position_uri == j2.position_uri) = some j2 := by
  intro l
  induction l with
  | nil => intro seen j2 h; simp [dedupAux] at h
  | cons j rest ih =>
      intro seen j2 h2
      rw [dedupAux] at h2
      by_cases h : j.position_uri ∈ seen
      · rw [if_pos h] at h2
        obtain ⟨hns, hf⟩ := ih seen j2 h2
        refine ⟨hns, ?_⟩
        have hne : j.position_uri ≠ j2.position_uri := fun he => hns (he ▸ h)
        rw [List.find?_cons_of_neg _ (by simp [hne])]
        exact hf
      · rw [if_neg h] at h2
        rcases List.mem_cons.mp h2 with rfl | hmem
        · exact ⟨h, by rw [List.find?_cons_of_pos _ (by simp)]⟩
        · obtain ⟨hns, hf⟩ := ih _ j2 hmem
          have hj2ne : j.position_uri ≠ j2.position_uri := by
            intro he
            exact hns (by rw [← he]; exact List.mem_cons_self _ _)
          refine ⟨fun hs => hns (List.mem_cons_of_mem _ hs), ?_⟩
          rw [List.find?_cons_of_neg _ (by simp [hj2ne])]
          exact hf

theorem dedupAux_nodup : ∀ (l : List JobPosting) (seen : List String),
    ((dedupAux seen l).map (fun j => j.position_uri)).Nodup := by
  intro l
  induction l with
  | nil => intro seen; simp [dedupAux]
  | cons j rest ih =>
      intro seen
      rw [dedupAux]
      by_cases h : j.position_uri ∈ seen
      · rw [if_pos h]; exact ih seen
      · rw [if_neg h]
        simp only [List.map_cons, List.nodup_cons]
        refine ⟨?_, ih _⟩
        intro hmem
        obtain ⟨j2, hj2, he⟩ := List.mem_map.mp hmem
        exact (dedupAux_spec rest _ j2 hj2).1 (by rw [he]; exact List.mem_cons_self _ _)

theorem dedupAux_covers : ∀ (l : List JobPosting) (seen : List String)
    (j : JobPosting), j ∈ l →
    j.position_uri ∈ seen ∨
      ∃ j2 ∈ dedupAux seen l, j2.position_uri = j.position_uri := by
  intro l
  induction l with
  | nil => intro seen j h; simp at h
  | cons a rest ih =>
      intro seen j h
      rw [dedupAux]
      by_cases ha : a.position_uri ∈ seen
      · rw [if_pos ha]
        rcases List.mem_cons.mp h with rfl | hmem
        · exact Or.inl ha
        · exact ih seen j hmem
      · rw [if_neg ha]
        rcases List.mem_cons.mp h with rfl | hmem
        · exact Or.inr ⟨j, List.mem_cons_self _ _, rfl⟩
        · rcases ih (a.position_uri :: seen) j hmem with hin | ⟨j2, hj2, he⟩
          · rcases List.mem_cons.mp hin with he | hs
            · exact Or.inr ⟨a, List.mem_cons_self _ _, he.symm⟩
            · exact Or.inl hs
          · exact Or.inr ⟨j2, List.mem_cons_of_mem _ hj2, he⟩

theorem filter_key_eq_singleton : ∀ (l : List JobPosting) (x : JobPosting),
    ((l.map (fun j => j.position_uri)).Nodup) → x ∈ l →
    l.filter (fun j => j.position_uri == x.position_uri) = [x] := by
  intro l
  induction l with
  | nil => intro x _ h; simp at h
  | cons a rest ih =>
      intro x hnd hx
      simp only [List.map_cons, List.nodup_cons] at hnd
      rcases List.mem_cons.mp hx with rfl | hmem
      · rw [List.filter_cons_of_pos (by simp)]
        have hrest : rest.filter (fun j => j.position_uri == x.position_uri) = [] := by
          refine List.filter_eq_nil_iff.mpr ?_
          intro a ha
          simp only [beq_iff_eq]
          intro he
          exact hnd.1 (List.mem_map.mpr ⟨a, ha, he⟩)
        rw [hrest]
      · have hne : a.position_uri ≠ x.position_uri := by
          intro he
          exact hnd.1 (List.mem_map.mpr ⟨x, hmem, he.symm⟩)
        rw [List.filter_cons_of_neg (by simp [hne])]
        exact ih x hnd.2 hmem

/-- C3: deduplication before persistence keeps, in input order (a sublist
of the batch), exactly one record per distinct position_uri, namely the
first occurrence of that key in batch order; later records with a seen
key are discarded. -/
theorem dedup_keeps_first_in_order (jobs : List JobPosting) :
    (dedupByUri jobs).Sublist jobs ∧
    ((dedupByUri jobs).map (fun j => j.position_uri)).Nodup ∧
    (∀ j ∈ jobs, ∃ j2 ∈ dedupByUri jobs, j2.position_uri = j.position_uri) ∧
    (∀ j2 ∈ dedupByUri jobs,
        jobs.find? (fun j => j.position_uri == j2.position_uri) = some j2) := by
  refine ⟨dedupAux_sublist jobs [], dedupAux_nodup jobs [], ?_, ?_⟩
  · intro j hj
    rcases dedupAux_covers jobs [] j hj with h | h
    · simp at h
    · exact h
  · intro j2 h
    exact (dedupAux_spec jobs [] j2 h).2

/-- C7 counterexample: on the batch [jobA, jobB] with equal keys, the
record that survives collapsing is the first occurrence jobA, not the
last-seen occurrence jobB as the claim states. -/
theorem dedup_last_seen_refuted :
    jobA.position_uri = jobB.position_uri ∧ jobA ≠ jobB ∧
    dedupByUri [jobA, jobB] = [jobA] ∧ dedupByUri [jobA, jobB] ≠ [jobB] := by
  refine ⟨rfl, by decide, by decide, by decide⟩

/-- C7 amended: duplicate keys in a batch are collapsed before persistence
to the first-seen occurrence: for every key occurring in the batch, the
sole record with that key surviving deduplication is the first record
with that key in batch order. -/
theorem dedup_collapses_to_first_occurrence (jobs : List JobPosting)
    (k : String) (hk : k ∈ jobs.map (fun j => j.position_uri)) :
    ∃ j, jobs.find? (fun r => r.position_uri == k) = some j ∧
      (dedupByUri jobs).filter (fun r => r.position_uri == k) = [j] := by
  obtain ⟨j0, hj0mem, hj0uri⟩ := List.mem_map.mp hk
  rcases dedupAux_covers jobs [] j0 hj0mem with h | ⟨j2, hj2, huri⟩
  · simp at h
  · have hkey : j2.position_uri = k := huri.trans hj0uri
    refine ⟨j2, ?_, ?_⟩
    · have hf := (dedupAux_spec jobs [] j2 hj2).2
      rw [hkey] at hf
      exact hf
    · have hfil := filter_key_eq_singleton (dedupByUri jobs) j2
        (dedupAux_nodup jobs []) hj2
      rw [hkey] at hfil
      exact hfil

/-- Witness for the amended C7 theorem on the two-record batch. -/
theorem dedup_collapses_to_first_occurrence_witness :
    ∃ j, ([jobA, jobB].find?
        (fun r => r.position_uri == "https://example.gov/job/1")) = some j ∧
      ((dedupByUri [jobA, jobB]).filter
        (fun r => r.position_uri == "https://example.gov/job/1")) = [j] :=
  dedup_collapses_to_first_occurrence [jobA, jobB] "https://example.gov/job/1"
    (by decide)

/-! Helper lemmas about the upsert accountant. -/

theorem hasKey_of_mem (store : List JobPosting) (j : JobPosting)
    (h : j ∈ store) : hasKey store j.position_uri = true := by
  simp only [hasKey, List.any_eq_true]
  exact ⟨j, h, by simp⟩

theorem upsertAll_all_new : ∀ (l store : List JobPosting),
    (∀ j ∈ l, hasKey store j.position_uri = false) →
    ((l.map (fun j => j.position_uri)).Nodup) →
    upsertAll store l = (store ++ l, l.length, 0) := by
  intro l
  induction l with
  | nil => intro store _ _; simp [upsertAll]
  | cons j rest ih =>
      intro store hnew hnd
      simp only [List.map_cons, List.nodup_cons] at hnd
      have hj : hasKey store j.position_uri = false :=
        hnew j (List.mem_cons_self _ _)
      have hins : applyUpsert store j = (store ++ [j], true) := by
        simp [applyUpsert, hj]
      have hrest : ∀ r ∈ rest, hasKey (store ++ [j]) r.position_uri = false := by
        intro r hr
        have h1 : hasKey store r.position_uri = false :=
          hnew r (List.mem_cons_of_mem _ hr)
        have h2 : j.position_uri ≠ r.position_uri := by
          intro he
          exact hnd.1 (List.mem_map.mpr ⟨r, hr, he.symm⟩)
        simp [hasKey, List.any_append] at h1 ⊢
        exact ⟨h1, h2⟩
      rw [upsertAll, hins]
      simp only [ih (store ++ [j]) hrest hnd.2]
      simp

theorem hasKey_update (store : List JobPosting) (j : JobPosting) (k : String) :
    hasKey (store.map (fun r => if r.position_uri == j.position_uri then j else r)) k
      = hasKey store k := by
  induction store with
  | nil => rfl
  | cons a rest ih =>
      simp only [List.map_cons]
      by_cases ha : a.position_uri = j.position_uri
      · have hhead :
            (if (a.position_uri == j.position_uri) = true then j else a) = j := by
          simp [ha]
        rw [hhead]
        simp only [hasKey, List.any_cons] at ih ⊢
        rw [ih, ha]
      · have hhead :
            (if (a.position_uri == j.position_uri) = true then j else a) = a := by
          simp [ha]
        rw [hhead]
        simp only [hasKey, List.any_cons] at ih ⊢
        rw [ih]

theorem lookupRow_update_self : ∀ (store : List JobPosting) (j : JobPosting),
    hasKey store j.position_uri = true →
    lookupRow (store.map (fun r => if r.position_uri == j.position_uri then j else r))
      j.position_uri = some j := by
  intro store
  induction store with
  | nil => intro j h; simp [hasKey] at h
  | cons a rest ih =>
      intro j h
      simp only [List.map_cons]
      by_cases ha : a.position_uri = j.position_uri
      · have hhead :
            (if (a.position_uri == j.position_uri) = true then j else a) = j := by
          simp [ha]
        rw [hhead, lookupRow, List.find?_cons_of_pos _ (by simp)]
      · have hhead :
            (if (a.position_uri == j.position_uri) = true then j else a) = a := by
          simp [ha]
        rw [hhead, lookupRow, List.find?_cons_of_neg _ (by simp [ha])]
        refine ih j ?_
        have h2 := h
        simp only [hasKey, List.any_cons, Bool.or_eq_true] at h2
        rcases h2 with hx | hx
        · exact absurd (by simpa using hx) ha
        · simpa [hasKey] using hx

theorem lookupRow_update_frame : ∀ (store : List JobPosting) (j : JobPosting)
    (k : String), k ≠ j.position_uri →
    lookupRow (store.map (fun r => if r.position_uri == j.position_uri then j else r)) k
      = lookupRow store k := by
  intro store
  induction store with
  | nil => intro j k _; rfl
  | cons a rest ih =>
      intro j k hk
      simp only [List.map_cons]
      have hjk : j.position_uri ≠ k := fun h => hk h.symm
      by_cases ha : a.position_uri = j.position_uri
      · have hhead :
            (if (a.position_uri == j.position_uri) = true then j else a) = j := by
          simp [ha]
        rw [hhead, lookupRow, List.find?_cons_of_neg _ (by simp [hjk]),
          lookupRow, List.find?_cons_of_neg _ (by simp [ha, hjk])]
        exact ih j k hk
      · have hhead :
            (if (a.position_uri == j.position_uri) = true then j else a) = a := by
          simp [ha]
        rw [hhead]
        by_cases hak : a.position_uri = k
        · rw [lookupRow, List.find?_cons_of_pos _ (by simp [hak]),
            lookupRow, List.find?_cons_of_pos _ (by simp [hak])]
        · rw [lookupRow, List.find?_cons_of_neg _ (by simp [hak]),
            lookupRow, List.find?_cons_of_neg _ (by simp [hak])]
          exact ih j k hk

theorem upsertAll_all_existing : ∀ (l store : List JobPosting),
    ((l.map (fun j => j.position_uri)).Nodup) →
    (∀ j ∈ l, hasKey store j.position_uri = true) →
    (upsertAll store l).2.1 = 0 ∧
    (upsertAll store l).2.2 = l.length ∧
    (∀ j ∈ l, lookupRow (upsertAll store l).1 j.position_uri = some j) ∧
    (∀ k, k ∉ l.map (fun j => j.position_uri) →
        lookupRow (upsertAll store l).1 k = lookupRow store k) ∧
    (∀ k, hasKey (upsertAll store l).1 k = hasKey store k) := by
  intro l
  induction l with
  | nil =>
      intro store _ _
      exact ⟨rfl, rfl, by simp, fun k _ => rfl, fun k => rfl⟩
  | cons j rest ih =>
      intro store hnd hex
      simp only [List.map_cons, List.nodup_cons] at hnd
      have hj : hasKey store j.position_uri = true := hex j (List.mem_cons_self _ _)
      have hupd : applyUpsert store j =
          (store.map (fun r => if r.position_uri == j.position_uri then j else r),
            false) := by
        simp [applyUpsert, hj]
      set store1 := store.map (fun r => if r.position_uri == j.position_uri then j else r)
        with hstore1
      have hex1 : ∀ r ∈ rest, hasKey store1 r.position_uri = true := by
        intro r hr
        rw [hstore1, hasKey_update]
        exact hex r (List.mem_cons_of_mem _ hr)
      obtain ⟨hc1, hc2, hlook, hframe, hkeys⟩ := ih store1 hnd.2 hex1
      have hstep : upsertAll store (j :: rest) =
          ((upsertAll store1 rest).1, (upsertAll store1 rest).2.1,
            (upsertAll store1 rest).2.2 + 1) := by
        rw [upsertAll, hupd]
        simp
      refine ⟨by rw [hstep]; exact hc1, by rw [hstep]; simp [hc2], ?_, ?_, ?_⟩
      · intro r hr
        rcases List.mem_cons.mp hr with rfl | hmem
        · rw [hstep]
          have hnotin : r.position_uri ∉ rest.map (fun j => j.position_uri) := hnd.1
          rw [hframe _ hnotin, hstore1]
          exact lookupRow_update_self store r hj
        · rw [hstep]
          exact hlook r hmem
      · intro k hk
        simp only [List.map_cons, List.mem_cons, not_or] at hk
        rw [hstep, hframe k hk.2, hstore1]
        exact lookupRow_update_frame store j k hk.1
      · intro k
        rw [hstep, hkeys k, hstore1, hasKey_update]

theorem dedup_length_eq_card (jobs : List JobPosting) :
    (dedupByUri jobs).length
      = (jobs.map (fun j => j.position_uri)).toFinset.card := by
  have hnd := dedupAux_nodup jobs []
  have hset : ((dedupByUri jobs).map (fun j => j.position_uri)).toFinset
      = (jobs.map (fun j => j.position_uri)).toFinset := by
    ext k
    simp only [List.mem_toFinset, List.mem_map]
    constructor
    · rintro ⟨j2, hj2, rfl⟩
      exact ⟨j2, (dedupAux_sublist jobs []).subset hj2, rfl⟩
    · rintro ⟨j, hj, rfl⟩
      rcases dedupAux_covers jobs [] j hj with h | ⟨j2, hj2, he⟩
      · simp at h
      · exact ⟨j2, hj2, he⟩
  calc (dedupByUri jobs).length
      = ((dedupByUri jobs).map (fun j => j.position_uri)).length := by simp
    _ = ((dedupByUri jobs).map (fun j => j.position_uri)).toFinset.card :=
        (List.toFinset_card_of_nodup hnd).symm
    _ = (jobs.map (fun j => j.position_uri)).toFinset.card := by rw [hset]

/-- C4: loading a batch whose keys are absent from the store inserts one
row per unique key and updates none, with total equal to the unique-key
count; immediately re-running the same batch against the resulting store
inserts nothing, updates exactly that count, and leaves each key's row
equal to the incoming (deduplicated) record, all fields overwritten. -/
theorem upsert_fresh_then_reapply (store jobs : List JobPosting)
    (hdisj : ∀ j ∈ jobs, hasKey store j.position_uri = false) :
    (upsert_jobs store jobs).2.inserted = (dedupByUri jobs).length ∧
    (upsert_jobs store jobs).2.updated = 0 ∧
    (upsert_jobs store jobs).2.total = (dedupByUri jobs).length ∧
    (dedupByUri jobs).length = (jobs.map (fun j => j.position_uri)).toFinset.card ∧
    (upsert_jobs (upsert_jobs store jobs).1 jobs).2.inserted = 0 ∧
    (upsert_jobs (upsert_jobs store jobs).1 jobs).2.updated
      = (dedupByUri jobs).length ∧
    (upsert_jobs (upsert_jobs store jobs).1 jobs).2.total
      = (dedupByUri jobs).length ∧
    (∀ j ∈ dedupByUri jobs,
        lookupRow (upsert_jobs (upsert_jobs store jobs).1 jobs).1 j.position_uri
          = some j) := by
  rcases jobs with _ | ⟨j0, rest⟩
  · refine ⟨rfl, rfl, rfl, by simp [dedupByUri, dedupAux], rfl, ?_, ?_, ?_⟩
    · simp [dedupByUri, dedupAux, upsert_jobs]
    · simp [dedupByUri, dedupAux, upsert_jobs]
    · intro j hj; simp [dedupByUri, dedupAux] at hj
  · set jobs := j0 :: rest with hjobs
    have hne : jobs.isEmpty = false := by rw [hjobs]; rfl
    have hnd := dedupAux_nodup jobs []
    have hd_new : ∀ j ∈ dedupByUri jobs, hasKey store j.position_uri = false :=
      fun j hj => hdisj j ((dedupAux_sublist jobs []).subset hj)
    have hrun1 := upsertAll_all_new (dedupByUri jobs) store hd_new hnd
    have h1 : upsert_jobs store jobs =
        (store ++ dedupByUri jobs,
          { inserted := (dedupByUri jobs).length, updated := 0,
            total := (dedupByUri jobs).length + 0 }) := by
      rw [upsert_jobs, hne]
      simp only [Bool.false_eq_true, if_false, hrun1]
    have hex : ∀ j ∈ dedupByUri jobs,
        hasKey (store ++ dedupByUri jobs) j.position_uri = true :=
      fun j hj => hasKey_of_mem _ j (List.mem_append_right _ hj)
    obtain ⟨hc1, hc2, hlook, _, _⟩ :=
      upsertAll_all_existing (dedupByUri jobs) (store ++ dedupByUri jobs) hnd hex
    have h2 : upsert_jobs (upsert_jobs store jobs).1 jobs =
        ((upsertAll (store ++ dedupByUri jobs) (dedupByUri jobs)).1,
          { inserted := (upsertAll (store ++ dedupByUri jobs) (dedupByUri jobs)).2.1,
            updated := (upsertAll (store ++ dedupByUri jobs) (dedupByUri jobs)).2.2,
            total := (upsertAll (store ++ dedupByUri jobs) (dedupByUri jobs)).2.1
              + (upsertAll (store ++ dedupByUri jobs) (dedupByUri jobs)).2.2 }) := by
      rw [h1, upsert_jobs, hne]
      simp only [Bool.false_eq_true, if_false]
    refine ⟨by rw [h1], by rw [h1], by rw [h1]; simp, dedup_length_eq_card jobs,
      ?_, ?_, ?_, ?_⟩
    · rw [h2]; exact hc1
    · rw [h2]; exact hc2
    · rw [h2]; simp [hc1, hc2]
    · intro j hj
      rw [h2]
      exact hlook j hj

/-- Witness for the C4 theorem: the two-record batch against an empty
store. -/
theorem upsert_fresh_then_reapply_witness :
    (upsert_jobs ([] : List JobPosting) [jobA, jobB]).2.inserted
      = (dedupByUri [jobA, jobB]).length :=
  (upsert_fresh_then_reapply [] [jobA, jobB] (fun j _ => rfl)).1

/-- C5: at a successfully fetched page within the page budget, the loop
stops exactly when the page has zero items, or (after extraction) the
page has fewer items than the requested page size of 500, or the reported
page count is at least the reported total count; in every other case it
advances to page + 1 carrying the extracted records. -/
theorem pagination_stop_characterisation (fetch : Nat → Except String Page)
    (mp page : Nat) (st : LoopState) (resp : Page)
    (hpage : page ≤ mp) (hfetch : fetch page = Except.ok resp) :
    (resp.items = [] → runLoopAux fetch mp page st = fetchStepEmpty st) ∧
    (resp.items ≠ [] →
      ((resp.items.length < 500 ∨
          resp.searchResultCountAll ≤ resp.searchResultCount) →
        runLoopAux fetch mp page st = fetchStepOk st resp) ∧
      (500 ≤ resp.items.length →
          resp.searchResultCount < resp.searchResultCountAll →
        runLoopAux fetch mp page st
          = runLoopAux fetch mp (page + 1) (fetchStepOk st resp))) := by
  have hnl : ¬ mp < page := by omega
  refine ⟨?_, ?_⟩
  · intro hempty
    rw [runLoopAux, dif_neg hnl]
    simp [hfetch, hempty, fetchStepEmpty]
  · intro hne
    have hie : resp.items.isEmpty = false := by
      cases hitems : resp.items with
      | nil => exact absurd hitems hne
      | cons a l => rfl
    refine ⟨?_, ?_⟩
    · intro hstop
      rw [runLoopAux, dif_neg hnl]
      simp [hfetch, hie, hstop, fetchStepOk]
    · intro hlen hcount
      have hcond : ¬ (resp.items.length < 500 ∨
          resp.searchResultCountAll ≤ resp.searchResultCount) := by
        push_neg
        exact ⟨by omega, by omega⟩
      rw [runLoopAux, dif_neg hnl]
      simp [hfetch, hie, hcond, fetchStepOk]

/-- Witness for the C5 theorem: a full page of 500 valid items reporting
500 of 1000 results continues to page 2, where an empty page stops. -/
theorem pagination_stop_characterisation_witness :
    (1 ≤ 20 ∧ (fun _ => Except.ok
        { items := List.replicate 500 jobA, searchResultCount := 500,
          searchResultCountAll := 1000 } :
        Nat → Except String Page) 1 = Except.ok
        { items := List.replicate 500 jobA, searchResultCount := 500,
          searchResultCountAll := 1000 }) ∧
    (List.replicate 500 jobA ≠ ([] : List JobPosting) →
      ((List.replicate 500 jobA).length < 500 ∨ 1000 ≤ 500 →
        runLoopAux (fun _ => Except.ok
            { items := List.replicate 500 jobA, searchResultCount := 500,
              searchResultCountAll := 1000 }) 20 1 initLoopState
          = fetchStepOk initLoopState
              { items := List.replicate 500 jobA, searchResultCount := 500,
                searchResultCountAll := 1000 }) ∧
      (500 ≤ (List.replicate 500 jobA).length → 500 < 1000 →
        runLoopAux (fun _ => Except.ok
            { items := List.replicate 500 jobA, searchResultCount := 500,
              searchResultCountAll := 1000 }) 20 1 initLoopState
          = runLoopAux (fun _ => Except.ok
              { items := List.replicate 500 jobA, searchResultCount := 500,
                searchResultCountAll := 1000 }) 20 2
              (fetchStepOk initLoopState
                { items := List.replicate 500 jobA, searchResultCount := 500,
                  searchResultCountAll := 1000 }))) :=
  ⟨⟨by omega, rfl⟩,
    (pagination_stop_characterisation
      (fun _ => Except.ok
        { items := List.replicate 500 jobA, searchResultCount := 500,
          searchResultCountAll := 1000 }) 20 1 initLoopState
      { items := List.replicate 500 jobA, searchResultCount := 500,
        searchResultCountAll := 1000 } (by omega) rfl).2⟩

/-- C6: at a page within the budget whose fetch fails, the wrapped message
is appended to the error list; the loop then advances to the next page
unless the failure text contains rate limit case-insensitively, in which
case it stops at once; and the run summary reports the loop's error list
unchanged alongside the other counters. -/
theorem pagination_error_policy (fetch : Nat → Except String Page)
    (mp page : Nat) (st : LoopState) (e : String)
    (hpage : page ≤ mp) (hfetch : fetch page = Except.error e) :
    (strContains (pyToLower e) "rate limit" = false →
      runLoopAux fetch mp page st
        = runLoopAux fetch mp (page + 1) (errStep st page e)) ∧
    (strContains (pyToLower e) "rate limit" = true →
      runLoopAux fetch mp page st = errStep st page e) ∧
    (∀ (mp2 : Nat) (store : List JobPosting),
      (etlRun fetch mp2 store).1.errors = (runLoop fetch mp2).errors ∧
      (etlRun fetch mp2 store).1.api_calls_made = (runLoop fetch mp2).api_calls ∧
      (etlRun fetch mp2 store).1.jobs_extracted
        = (runLoop fetch mp2).jobs_extracted) := by
  have hnl : ¬ mp < page := by omega
  refine ⟨?_, ?_, ?_⟩
  · intro hrl
    rw [runLoopAux, dif_neg hnl]
    simp [hfetch, hrl, errStep]
  · intro hrl
    rw [runLoopAux, dif_neg hnl]
    simp [hfetch, hrl, errStep]
  · intro mp2 store
    exact ⟨rfl, rfl, rfl⟩

/-- Witness for the C6 theorem: a non-rate-limit failure on page 1 advances,
a rate-limited one would stop. -/
theorem pagination_error_policy_witness :
    (1 ≤ 20 ∧ (fun _ => Except.error "connection reset" :
        Nat → Except String Page) 1 = Except.error "connection reset") ∧
    (strContains (pyToLower "connection reset") "rate limit" = false →
      runLoopAux (fun _ => Except.error "connection reset") 20 1 initLoopState
        = runLoopAux (fun _ => Except.error "connection reset") 20 2
            (errStep initLoopState 1 "connection reset")) :=
  ⟨⟨by omega, rfl⟩,
    (pagination_error_policy (fun _ => Except.error "connection reset")
      20 1 initLoopState "connection reset" (by omega) rfl).1⟩

/-! Helper bound for the pagination loop. -/

theorem runLoopAux_fetch_bound (fetch : Nat → Except String Page) (mp : Nat) :
    ∀ (n page : Nat) (st : LoopState), mp + 1 - page ≤ n →
      (runLoopAux fetch mp page st).fetch_attempts
        ≤ st.fetch_attempts + (mp + 1 - page) := by
  intro n
  induction n with
  | zero =>
      intro page st hn
      have hlt : mp < page := by omega
      rw [runLoopAux, dif_pos hlt]
      omega
  | succ n0 ih =>
      intro page st hn
      by_cases hlt : mp < page
      · rw [runLoopAux, dif_pos hlt]; omega
      · rw [runLoopAux, dif_neg hlt]
        cases hf : fetch page with
        | ok resp =>
            by_cases hie : resp.items.isEmpty
            · simp only [hie, if_true]
              simp
              omega
            · simp only [Bool.not_eq_true] at hie
              simp only [hie]
              by_cases hcond : resp.items.length < 500 ∨
                  resp.searchResultCountAll ≤ resp.searchResultCount
              · simp only [if_pos hcond]
                simp
                omega
              · simp only [if_neg hcond, Bool.false_eq_true, if_false]
                have hrec := ih (page + 1)
                  { st with
                      fetch_attempts := st.fetch_attempts + 1
                      api_calls := st.api_calls + 1
                      all_jobs := st.all_jobs ++ extract_job_data resp.items
                      jobs_extracted := st.jobs_extracted
                        + (extract_job_data resp.items).length }
                  (by omega)
                simp at hrec ⊢
                omega
        | error e =>
            by_cases hrl : strContains (pyToLower e) "rate limit"
            · simp only [hrl, if_true]
              simp
              omega
            · simp only [hrl, Bool.false_eq_true, if_false]
              have hrec := ih (page + 1)
                { st with
                    fetch_attempts := st.fetch_attempts + 1
                    errors := st.errors ++ [pageErrMsg page e] }
                (by omega)
              simp at hrec ⊢
              omega

/-- C8: a run's pagination loop performs at most max_pages iterations and
hence at most max_pages page fetches, whatever the API returns. -/
theorem run_fetches_at_most_max_pages (fetch : Nat → Except String Page)
    (max_pages : Nat) :
    (runLoop fetch max_pages).fetch_attempts ≤ max_pages := by
  have h := runLoopAux_fetch_bound fetch max_pages (max_pages + 1 - 1) 1
    initLoopState (by omega)
  simp only [initLoopState] at h
  calc (runLoop fetch max_pages).fetch_attempts
      ≤ 0 + (max_pages + 1 - 1) := h
    _ ≤ max_pages := by omega

/-! Helper lemma for record validation. -/

theorem validate_eq_true_iff (j : JobPosting) :
    j.validate = true ↔
      (pyStrip j.position_title ≠ "" ∧ pyStrip j.position_uri ≠ "" ∧
        pyStartsWith j.position_uri "http" = true) := by
  unfold JobPosting.validate
  by_cases h1 : (j.position_title == "" || pyStrip j.position_title == "") = true
  · rw [if_pos h1]
    simp only [Bool.or_eq_true, beq_iff_eq] at h1
    constructor
    · intro h; exact absurd h (by simp)
    · rintro ⟨ht, -, -⟩
      rcases h1 with h1 | h1
      · exact absurd (by rw [h1]; rfl) ht
      · exact absurd h1 ht
  · rw [if_neg h1]
    by_cases h2 : (j.position_uri == "" || pyStrip j.position_uri == "") = true
    · rw [if_pos h2]
      simp only [Bool.or_eq_true, beq_iff_eq] at h2
      constructor
      · intro h; exact absurd h (by simp)
      · rintro ⟨-, hu, -⟩
        rcases h2 with h2 | h2
        · exact absurd (by rw [h2]; rfl) hu
        · exact absurd h2 hu
    · rw [if_neg h2]
      simp only [Bool.or_eq_true, beq_iff_eq, not_or] at h1 h2
      by_cases h3 : pyStartsWith j.position_uri "http" = true
      · rw [if_neg (by simp [h3])]
        simp [h1.2, h2.2, h3]
      · rw [if_pos (by simpa using h3)]
        constructor
        · intro h; exact absurd h (by simp)
        · rintro ⟨-, -, hs⟩; exact absurd hs h3

/-- C10: a record validates exactly when its title is non-blank after
stripping, its key is non-blank after stripping and its key starts with
the four characters http; in particular the non-URL key httpgarbage with
a non-blank title validates and survives extraction to the load stage. -/
theorem validate_blank_and_http_only (j : JobPosting) :
    (j.validate = true ↔
      (pyStrip j.position_title ≠ "" ∧ pyStrip j.position_uri ≠ "" ∧
        pyStartsWith j.position_uri "http" = true)) ∧
    garbageJob.validate = true ∧
    extract_job_data [garbageJob] = [garbageJob] :=
  ⟨validate_eq_true_iff j, by decide, by decide⟩

end UsaJobsEtl
